import Mathlib

/-!
Verification of the addition-problem codec and dataset of the minGPT
addition notebook (`play_math.ipynb`).

The notebook's authored logic is the class `AdditionDataset`
(`__init__`, `__len__`, `__getitem__`) and the decoding part of the
evaluation harness `give_exam`.  Everything below is a shallow embedding
of that code:

* `render1 width v` models the Python format `'%0{width}d' % v`, viewed
  as the list of its decimal digits: the decimal digits of `v`
  (big-endian), left-padded with zeros to at least `width` characters.
  Python never truncates: for `v ≥ 10^width` the output is longer than
  `width`.
* `render ndigit a b c` models
  `f'%0{ndigit}d%0{ndigit}d%0{ndigit+1}d' % (a,b,c)` from
  `AdditionDataset.__getitem__`, and `encode ndigit a b` is the codec's
  Encode operation (`c = a + b` as in the source).
* `factors`, `weightedSum`, `decode` model the decoding in `give_exam`:
  `factors = [[10**i for i in range(ndigit+1)][::-1]]`, and the
  addends / sum are recovered as `(digits * factors).sum`, the sum being
  read from the last `ndigit+1` digits.
* `num`, `num_test`, `ixes`, `getitem`, `block_size`, `vocab_size`
  model `AdditionDataset.__init__` / `__getitem__`.  The permutation
  `perm = np.random.RandomState(1337).permutation(num)` is produced by
  numpy, an external library, so the embedding takes `perm` as a
  parameter; theorems that depend on it assume numpy's documented
  contract, namely that `perm` is a permutation of `range(num)`
  (`perm.Perm (List.range (num ndigit))`).
* `rhe` / `roundToDouble` model IEEE-754 binary64 arithmetic
  (round-to-nearest, ties-to-even, overflow ignored) over `ℚ`, used by
  the source line `num_test = min(int(num*0.2), 1000)`: the literal
  `0.2` is the double nearest `1/5`, `num` is converted to a double,
  the product is a correctly rounded double multiplication, and `int`
  truncates (for a positive argument, takes the floor).
-/

/-- Big-endian decimal digits of `v`; empty for `v = 0`. -/
def decDigits (v : ℕ) : List ℕ :=
  (Nat.digits 10 v).reverse

/-- The decimal string `str(v)` of Python, as a digit list: `0` prints as `"0"`. -/
def pyStr (v : ℕ) : List ℕ :=
  if v = 0 then [0] else decDigits v

/-- The Python format `'%0{width}d' % v`: the decimal digits of `v`, left-padded
with zeros to at least `width` characters (never truncated). -/
def render1 (width v : ℕ) : List ℕ :=
  List.replicate (width - (pyStr v).length) 0 ++ pyStr v

/-- The render line of `AdditionDataset.__getitem__`:
`f'%0{ndigit}d%0{ndigit}d%0{ndigit+1}d' % (a,b,c)` as a digit list. -/
def render (ndigit a b c : ℕ) : List ℕ :=
  render1 ndigit a ++ render1 ndigit b ++ render1 (ndigit + 1) c

/-- The codec's Encode operation: the digit sequence of the problem `a + b`,
with `c = a + b` as computed in `__getitem__`. -/
def encode (ndigit a b : ℕ) : List ℕ :=
  render ndigit a b (a + b)

/-- The factor row of `give_exam`: `[10**i for i in range(ndigit+1)][::-1]`. -/
def factors (ndigit : ℕ) : List ℕ :=
  ((List.range (ndigit + 1)).map fun i => 10 ^ i).reverse

/-- The weighted sum `(digits * factors).sum(1)` of `give_exam`. -/
def weightedSum (ds ws : List ℕ) : ℕ :=
  (List.zipWith (fun d w => d * w) ds ws).sum

/-- The decoding of `give_exam`: the first `ndigit` digits with factors
`factors[:,1:]` give the first addend (`d1i`), the next `ndigit` digits give
the second addend (`d2i`), and the last `ndigit+1` digits with the full factor
row give the sum (`d3i`). -/
def decode (ndigit : ℕ) (seq : List ℕ) : ℕ × ℕ × ℕ :=
  (weightedSum (seq.take ndigit) ((factors ndigit).drop 1),
   weightedSum ((seq.drop ndigit).take ndigit) ((factors ndigit).drop 1),
   weightedSum (seq.drop (seq.length - (ndigit + 1))) (factors ndigit))

/-- `self.vocab_size = 10` from `AdditionDataset.__init__`. -/
def vocab_size : ℕ := 10

/-- `self.block_size = ndigit + ndigit + ndigit + 1 - 1` from
`AdditionDataset.__init__`. -/
def block_size (ndigit : ℕ) : ℕ :=
  ndigit + ndigit + ndigit + 1 - 1

/-- `num = (10**self.ndigit)**2` from `AdditionDataset.__init__`. -/
def num (ndigit : ℕ) : ℕ :=
  (10 ^ ndigit) ^ 2

/-- Round a rational to the nearest integer, ties to even (the rounding of
IEEE-754 binary64 restricted to the significand grid). -/
def rhe (x : ℚ) : ℤ :=
  if x - ⌊x⌋ < 1 / 2 then ⌊x⌋
  else if 1 / 2 < x - ⌊x⌋ then ⌊x⌋ + 1
  else if ⌊x⌋ % 2 = 0 then ⌊x⌋ else ⌊x⌋ + 1

/-- Round a positive rational to the nearest IEEE-754 binary64 value
(53 significant bits, round-to-nearest ties-to-even, unbounded exponent). -/
def roundToDouble (q : ℚ) : ℚ :=
  if q ≤ 0 then 0
  else ((rhe (q * (2 : ℚ) ^ ((52 : ℤ) - Int.log 2 q)) : ℤ) : ℚ) *
    (2 : ℚ) ^ (Int.log 2 q - 52)

/-- `num_test = min(int(num*0.2), 1000)` from `AdditionDataset.__init__`,
with the floating-point evaluation of `int(num*0.2)` modelled exactly:
`num` is converted to a double, multiplied by the double nearest `1/5`
(the literal `0.2`), the product is rounded to a double, and `int`
truncates the positive result (floor). -/
def num_test (ndigit : ℕ) : ℕ :=
  min (Int.toNat
    ⌊roundToDouble (roundToDouble ((num ndigit : ℚ)) * roundToDouble (1 / 5))⌋) 1000

/-- `self.ixes = perm[:num_test] if split == 'test' else perm[num_test:]` from
`AdditionDataset.__init__`; `perm` stands for numpy's
`RandomState(1337).permutation(num)`. -/
def ixes (ndigit : ℕ) (split : String) (perm : List ℕ) : List ℕ :=
  if split = "test" then perm.take (num_test ndigit) else perm.drop (num_test ndigit)

/-- The slice assignment `y[:k] = -100` of `AdditionDataset.__getitem__`:
replace the first `k` entries (clamped to the length) by `-100`. -/
def target_mask (k : ℕ) (y : List ℤ) : List ℤ :=
  match k, y with
  | 0, y => y
  | _ + 1, [] => []
  | k + 1, _ :: t => -100 :: target_mask k t

/-- `AdditionDataset.__getitem__`: recover `a`, `b` from the permuted problem
index, render the digit sequence `dix` of `a + b = c` (`encode` is exactly the
source's `c = a + b` followed by the `render` line), and return `x = dix[:-1]`
and `y = dix[1:]` with `y[:ndigit*2-1] = -100`. -/
def getitem (ndigit : ℕ) (split : String) (perm : List ℕ) (i : ℕ) : List ℤ × List ℤ :=
  let idx := (ixes ndigit split perm).getD i 0
  let a := idx / 10 ^ ndigit
  let b := idx % 10 ^ ndigit
  let dix := encode ndigit a b
  let x := dix.dropLast.map (fun (d : ℕ) => (d : ℤ))
  let y := target_mask (ndigit * 2 - 1) (dix.tail.map (fun (d : ℕ) => (d : ℤ)))
  (x, y)

/-- The index-to-problem mapping of `__getitem__`:
`a = idx // 10**ndigit`, `b = idx % 10**ndigit`. -/
def idx_to_problem (ndigit idx : ℕ) : ℕ × ℕ :=
  (idx / 10 ^ ndigit, idx % 10 ^ ndigit)

/-! ## Digit and rendering lemmas -/

theorem ofDigits_replicate_zero (b k : ℕ) : Nat.ofDigits b (List.replicate k 0) = 0 := by
  induction k with
  | zero => simp [Nat.ofDigits]
  | succ k ih => simp [List.replicate_succ, Nat.ofDigits_cons, ih]

theorem pyStr_length_le {w v : ℕ} (hw : 1 ≤ w) (hv : v < 10 ^ w) : (pyStr v).length ≤ w := by
  rw [pyStr]
  split_ifs with h
  · simpa using hw
  · rw [decDigits, List.length_reverse, Nat.digits_len 10 v (by norm_num) h]
    have := (Nat.lt_pow_iff_log_lt (by norm_num) h).mp hv
    omega

theorem le_pyStr_length {w v : ℕ} (hv : 10 ^ w ≤ v) : w + 1 ≤ (pyStr v).length := by
  have hpos : 0 < 10 ^ w := pow_pos (by norm_num) w
  have hv0 : v ≠ 0 := by omega
  rw [pyStr, if_neg hv0, decDigits, List.length_reverse, Nat.digits_len 10 v (by norm_num) hv0]
  have := (Nat.pow_le_iff_le_log (by norm_num) hv0).mp hv
  omega

theorem render1_length_eq (w v : ℕ) : (render1 w v).length = max w (pyStr v).length := by
  rw [render1, List.length_append, List.length_replicate]
  omega

theorem render1_length {w v : ℕ} (hw : 1 ≤ w) (hv : v < 10 ^ w) : (render1 w v).length = w := by
  rw [render1_length_eq]
  have := pyStr_length_le hw hv
  omega

theorem render1_digit_lt {w v d : ℕ} (hd : d ∈ render1 w v) : d < 10 := by
  rw [render1] at hd
  rcases List.mem_append.mp hd with h | h
  · have := List.eq_of_mem_replicate h
    omega
  · rw [pyStr] at h
    split_ifs at h with h0
    · simp at h
      omega
    · rw [decDigits, List.mem_reverse] at h
      exact Nat.digits_lt_base (by norm_num) h

theorem weightedSum_powers (ds : List ℕ) : ∀ w, ds.length = w →
    weightedSum ds (((List.range w).map fun i => 10 ^ i).reverse) = Nat.ofDigits 10 ds.reverse := by
  induction ds with
  | nil =>
      intro w hw
      simp [weightedSum, Nat.ofDigits]
  | cons d tl ih =>
      intro w hw
      obtain ⟨k, rfl⟩ : ∃ k, w = k + 1 := ⟨tl.length, by simp at hw; omega⟩
      have hk : tl.length = k := by simpa using hw
      rw [List.range_succ, List.map_append, List.reverse_append]
      simp only [List.map_cons, List.map_nil, List.reverse_cons, List.reverse_nil,
        List.nil_append, List.singleton_append]
      rw [weightedSum, List.zipWith_cons_cons, List.sum_cons]
      have IH := ih k hk
      rw [weightedSum] at IH
      rw [IH, Nat.ofDigits_append, List.length_reverse, hk]
      simp [Nat.ofDigits]
      ring

theorem weightedSum_render1 {w v : ℕ} (hw : 1 ≤ w) (hv : v < 10 ^ w) :
    weightedSum (render1 w v) (((List.range w).map fun i => 10 ^ i).reverse) = v := by
  rw [weightedSum_powers _ w (render1_length hw hv)]
  rw [render1, List.reverse_append, List.reverse_replicate, Nat.ofDigits_append,
    ofDigits_replicate_zero, mul_zero, add_zero]
  rw [pyStr]
  split_ifs with h0
  · simp [Nat.ofDigits, h0]
  · rw [decDigits, List.reverse_reverse, Nat.ofDigits_digits]

theorem sum_lt_pow_succ {n a b : ℕ} (ha : a < 10 ^ n) (hb : b < 10 ^ n) :
    a + b < 10 ^ (n + 1) := by
  have h1 : 10 ^ (n + 1) = 10 ^ n * 10 := pow_succ 10 n
  omega

theorem encode_length {n a b : ℕ} (hn : 1 ≤ n) (ha : a < 10 ^ n) (hb : b < 10 ^ n) :
    (encode n a b).length = 3 * n + 1 := by
  rw [encode, render, List.length_append, List.length_append, render1_length hn ha,
    render1_length hn hb, render1_length (by omega) (sum_lt_pow_succ ha hb)]
  ring

theorem encode_digit_lt {n a b d : ℕ} (hd : d ∈ encode n a b) : d < 10 := by
  rw [encode, render] at hd
  simp only [List.mem_append] at hd
  rcases hd with (h | h) | h <;> exact render1_digit_lt h

theorem factors_drop_one (n : ℕ) :
    (factors n).drop 1 = ((List.range n).map fun i => 10 ^ i).reverse := by
  rw [factors, List.range_succ, List.map_append, List.reverse_append]
  simp

/-! ## Codec claims -/

/-- C1: round-trip of the codec. For every `ndigit ≥ 1` and every pair `(a, b)`
with `0 ≤ a, b < 10^ndigit`, encoding `(a, b)` into the digit sequence
(zero-padded `a`-digits, then `b`-digits, then `(a+b)`-digits) and then decoding
the first `ndigit`, next `ndigit`, and last `ndigit+1` digits as big-endian
base-10 integers by weighted sums with powers of 10 reproduces `(a, b, a+b)`. -/
theorem C1_codec_round_trip (n a b : ℕ) (hn : 1 ≤ n) (ha : a < 10 ^ n) (hb : b < 10 ^ n) :
    decode n (encode n a b) = (a, b, a + b) := by
  have hc := sum_lt_pow_succ ha hb
  have hA : (render1 n a).length = n := render1_length hn ha
  have hB : (render1 n b).length = n := render1_length hn hb
  have hAB : (render1 n a ++ render1 n b).length = 2 * n := by
    rw [List.length_append, hA, hB]
    ring
  have hlen : (encode n a b).length = 3 * n + 1 := encode_length hn ha hb
  have h1 : (encode n a b).take n = render1 n a := by
    rw [encode, render, List.append_assoc]
    exact List.take_left' hA
  have h2 : (encode n a b).drop n = render1 n b ++ render1 (n + 1) (a + b) := by
    rw [encode, render, List.append_assoc]
    exact List.drop_left' hA
  have h3 : (encode n a b).drop (2 * n) = render1 (n + 1) (a + b) := by
    rw [encode, render]
    exact List.drop_left' hAB
  rw [decode]
  simp only [Prod.mk.injEq]
  refine ⟨?_, ?_, ?_⟩
  · rw [h1, factors_drop_one]
    exact weightedSum_render1 hn ha
  · rw [h2, List.take_left' hB, factors_drop_one]
    exact weightedSum_render1 hn hb
  · have he : 3 * n + 1 - (n + 1) = 2 * n := by omega
    rw [hlen, he, h3, factors]
    exact weightedSum_render1 (by omega) hc

/-- Witness for C1 at the spec's example `ndigit = 2`, `6 + 39 = 45`. -/
theorem C1_codec_round_trip_witness : decode 2 (encode 2 6 39) = (6, 39, 45) := by
  simpa using C1_codec_round_trip 2 6 39 (by norm_num) (by norm_num) (by norm_num)

/-- C6: for every `ndigit ≥ 1` and every `a, b < 10^ndigit` (hence every problem
produced by index lookup), the encoded digit sequence has length exactly
`3*ndigit + 1` and each of its elements is a single decimal digit `0..9`. -/
theorem C6_encoded_length_and_digits (n a b : ℕ) (hn : 1 ≤ n) (ha : a < 10 ^ n)
    (hb : b < 10 ^ n) :
    (encode n a b).length = 3 * n + 1 ∧ ∀ d ∈ encode n a b, d < 10 :=
  ⟨encode_length hn ha hb, fun _ hd => encode_digit_lt hd⟩

/-- Witness for C6 at the spec's example `ndigit = 2`, `85 + 50 = 135`. -/
theorem C6_encoded_length_and_digits_witness :
    (encode 2 85 50).length = 3 * 2 + 1 ∧ ∀ d ∈ encode 2 85 50, d < 10 :=
  C6_encoded_length_and_digits 2 85 50 (by norm_num) (by norm_num) (by norm_num)

/-- C7: the encode operation produces a sequence satisfying the fixed-length
invariant `3*ndigit + 1` if and only if neither `a` nor `b` exceeds
`10^ndigit - 1` (i.e. `a, b < 10^ndigit`); the code never raises, so "failure"
is the violation of the `EncodedSequence` fixed-length invariant, which happens
exactly when an addend overflows its zero-padded field. -/
theorem C7_encode_fixed_length_iff (n a b : ℕ) (hn : 1 ≤ n) :
    (encode n a b).length = 3 * n + 1 ↔ a < 10 ^ n ∧ b < 10 ^ n := by
  constructor
  · intro hlen
    have hEq : (encode n a b).length =
        max n (pyStr a).length + max n (pyStr b).length + max (n + 1) (pyStr (a + b)).length := by
      rw [encode, render, List.length_append, List.length_append, render1_length_eq,
        render1_length_eq, render1_length_eq]
    by_contra hcon
    rcases not_and_or.mp hcon with h | h
    · push_neg at h
      have h1 := le_pyStr_length h
      omega
    · push_neg at h
      have h1 := le_pyStr_length h
      omega
  · rintro ⟨ha, hb⟩
    exact encode_length hn ha hb

/-- Witness for C7 at `ndigit = 1`, the overflowing addend `a = 12` and the
in-range addend `b = 3`. -/
theorem C7_encode_fixed_length_iff_witness :
    (encode 1 12 3).length = 3 * 1 + 1 ↔ 12 < 10 ^ 1 ∧ 3 < 10 ^ 1 :=
  C7_encode_fixed_length_iff 1 12 3 (by norm_num)

/-! ## Floating-point rounding lemmas -/

theorem abs_rhe_sub_le (x : ℚ) : |(rhe x : ℚ) - x| ≤ 1 / 2 := by
  have h0 : (⌊x⌋ : ℚ) ≤ x := Int.floor_le x
  have h1 : x < ⌊x⌋ + 1 := Int.lt_floor_add_one x
  unfold rhe
  split_ifs with hA hB hC <;> rw [abs_le] <;> push_cast <;> constructor <;> linarith

theorem roundToDouble_abs_sub_le {q : ℚ} (hq : 0 < q) :
    |roundToDouble q - q| ≤ q / 9007199254740992 := by
  set e := Int.log 2 q with he
  have he1 : (2 : ℚ) ^ e ≤ q := Int.zpow_log_le_self (by norm_num) hq
  set x := q * (2 : ℚ) ^ ((52 : ℤ) - e) with hx
  have h2 : (2 : ℚ) ^ ((52 : ℤ) - e) * (2 : ℚ) ^ (e - 52) = 1 := by
    rw [← zpow_add₀ (by norm_num : (2 : ℚ) ≠ 0)]
    norm_num
  have hunf : roundToDouble q = ((rhe x : ℤ) : ℚ) * (2 : ℚ) ^ (e - 52) := by
    rw [roundToDouble, if_neg (not_le.mpr hq)]
  have hqx : x * (2 : ℚ) ^ (e - 52) = q := by
    rw [hx, mul_assoc, h2, mul_one]
  have hpos : (0 : ℚ) < (2 : ℚ) ^ (e - 52) := zpow_pos (by norm_num) _
  calc |roundToDouble q - q| = |(rhe x : ℚ) - x| * (2 : ℚ) ^ (e - 52) := by
        rw [hunf, ← hqx, ← sub_mul, abs_mul, abs_of_pos hpos]
    _ ≤ (1 / 2) * (2 : ℚ) ^ (e - 52) :=
        mul_le_mul_of_nonneg_right (abs_rhe_sub_le x) (le_of_lt hpos)
    _ = (2 : ℚ) ^ e / 9007199254740992 := by
        have hsplit : (2 : ℚ) ^ (e - 52) = (2 : ℚ) ^ e / (2 : ℚ) ^ (52 : ℤ) :=
          zpow_sub₀ (by norm_num) e 52
        rw [hsplit, show ((2 : ℚ) ^ (52 : ℤ)) = 4503599627370496 from by norm_num]
        ring
    _ ≤ q / 9007199254740992 := by
        gcongr

theorem roundToDouble_ge {q : ℚ} (hq : 0 < q) :
    q - q / 9007199254740992 ≤ roundToDouble q := by
  have h := (abs_le.mp (roundToDouble_abs_sub_le hq)).1
  linarith

theorem roundToDouble_le_bound {q : ℚ} (hq : 0 < q) :
    roundToDouble q ≤ q + q / 9007199254740992 := by
  have h := (abs_le.mp (roundToDouble_abs_sub_le hq)).2
  linarith

theorem roundToDouble_pos {q : ℚ} (hq : 0 < q) : 0 < roundToDouble q := by
  have h := roundToDouble_ge hq
  linarith

theorem floor_core_ge {N : ℕ} (hN : 10 ^ 4 ≤ N) :
    1000 ≤ Int.toNat ⌊roundToDouble (roundToDouble (N : ℚ) * roundToDouble (1 / 5))⌋ := by
  have hN10 : (10000 : ℚ) ≤ (N : ℚ) := by
    have hc : ((10 ^ 4 : ℕ) : ℚ) ≤ (N : ℚ) := Nat.cast_le.mpr hN
    push_cast at hc
    linarith
  have hNpos : (0 : ℚ) < (N : ℚ) := by linarith
  have h5 : (0 : ℚ) < (1 / 5 : ℚ) := by norm_num
  have hA := roundToDouble_ge hNpos
  have hB := roundToDouble_ge h5
  have hR1 : (9000 : ℚ) ≤ roundToDouble (N : ℚ) := by linarith
  have hR2 : (19 / 100 : ℚ) ≤ roundToDouble (1 / 5) := by linarith
  have hPpos : (0 : ℚ) < roundToDouble (N : ℚ) * roundToDouble (1 / 5) :=
    mul_pos (by linarith) (by linarith)
  have hP : (1710 : ℚ) ≤ roundToDouble (N : ℚ) * roundToDouble (1 / 5) := by
    have hm := mul_le_mul hR1 hR2 (by norm_num) (by linarith)
    linarith
  have hC := roundToDouble_ge hPpos
  have hfloor : (1000 : ℤ) ≤ ⌊roundToDouble (roundToDouble (N : ℚ) * roundToDouble (1 / 5))⌋ :=
    Int.le_floor.mpr (by push_cast; linarith)
  omega

theorem roundToDouble_eq_of {q : ℚ} (e : ℤ) (hq : 0 < q) (h1 : (2 : ℚ) ^ e ≤ q)
    (h2 : q < (2 : ℚ) ^ (e + 1)) :
    roundToDouble q = ((rhe (q * (2 : ℚ) ^ ((52 : ℤ) - e)) : ℤ) : ℚ) * (2 : ℚ) ^ (e - 52) := by
  have hlog : Int.log 2 q = e := by
    have hl1 : (2 : ℚ) ^ (Int.log 2 q) ≤ q := Int.zpow_log_le_self (by norm_num) hq
    have hl2 : q < (2 : ℚ) ^ (Int.log 2 q + 1) := Int.lt_zpow_succ_log_self (by norm_num) q
    rcases lt_trichotomy (Int.log 2 q) e with h | h | h
    · exfalso
      have hle : (2 : ℚ) ^ (Int.log 2 q + 1) ≤ (2 : ℚ) ^ e :=
        zpow_le_zpow_right₀ (by norm_num) (by omega)
      linarith
    · exact h
    · exfalso
      have hle : (2 : ℚ) ^ (e + 1) ≤ (2 : ℚ) ^ (Int.log 2 q) :=
        zpow_le_zpow_right₀ (by norm_num) (by omega)
      linarith
  rw [roundToDouble, if_neg (not_le.mpr hq), hlog]

theorem rhe_eq_of_lt {x : ℚ} {m : ℤ} (h1 : (m : ℚ) ≤ x) (h2 : x < m + 1)
    (hf : x - m < 1 / 2) : rhe x = m := by
  have hm : ⌊x⌋ = m := Int.floor_eq_iff.mpr ⟨h1, h2⟩
  unfold rhe
  rw [hm, if_pos hf]

theorem rhe_eq_of_gt {x : ℚ} {m : ℤ} (h1 : (m : ℚ) ≤ x) (h2 : x < m + 1)
    (hf : 1 / 2 < x - m) : rhe x = m + 1 := by
  have hm : ⌊x⌋ = m := Int.floor_eq_iff.mpr ⟨h1, h2⟩
  unfold rhe
  rw [hm, if_neg (by linarith), if_pos hf]

theorem roundToDouble_hundred : roundToDouble 100 = 100 := by
  rw [roundToDouble_eq_of 6 (by norm_num) (by norm_num) (by norm_num)]
  have hx : (100 : ℚ) * (2 : ℚ) ^ ((52 : ℤ) - 6) = 7036874417766400 := by norm_num
  have hr : rhe (7036874417766400 : ℚ) = 7036874417766400 :=
    rhe_eq_of_lt (by norm_num) (by norm_num) (by norm_num)
  rw [hx, hr]
  push_cast
  norm_num

theorem roundToDouble_fifth : roundToDouble (1 / 5) = 7205759403792794 / 2 ^ 55 := by
  rw [roundToDouble_eq_of (-3) (by norm_num) (by norm_num) (by norm_num)]
  have hx : (1 / 5 : ℚ) * (2 : ℚ) ^ ((52 : ℤ) - (-3)) = 36028797018963968 / 5 := by norm_num
  have hr : rhe (36028797018963968 / 5 : ℚ) = 7205759403792793 + 1 :=
    rhe_eq_of_gt (by norm_num) (by norm_num) (by norm_num)
  rw [hx, hr]
  push_cast
  norm_num

theorem roundToDouble_twenty :
    roundToDouble (100 * (7205759403792794 / 2 ^ 55)) = 20 := by
  rw [roundToDouble_eq_of 4 (by norm_num) (by norm_num) (by norm_num)]
  have hx : (100 * (7205759403792794 / 2 ^ 55) : ℚ) * (2 : ℚ) ^ ((52 : ℤ) - 4) =
      720575940379279400 / 128 := by norm_num
  have hr : rhe (720575940379279400 / 128 : ℚ) = 5629499534213120 :=
    rhe_eq_of_lt (by norm_num) (by norm_num) (by norm_num)
  rw [hx, hr]
  push_cast
  norm_num

theorem num_test_one : num_test 1 = 20 := by
  have h1 : ((num 1 : ℕ) : ℚ) = 100 := by norm_num [num]
  rw [num_test, h1, roundToDouble_hundred, roundToDouble_fifth, roundToDouble_twenty]
  norm_num
  decide

theorem num_test_of_two_le {n : ℕ} (hn : 2 ≤ n) : num_test n = 1000 := by
  have hN : 10 ^ 4 ≤ num n := by
    rw [num, ← pow_mul]
    exact Nat.pow_le_pow_right (by norm_num) (by omega)
  have h := floor_core_ge hN
  rw [num_test]
  omega

theorem num_test_eq {n : ℕ} (hn : 1 ≤ n) :
    num_test n = min (2 * 10 ^ (2 * n - 1)) 1000 := by
  rcases Nat.lt_or_ge n 2 with h | h
  · have hn1 : n = 1 := by omega
    subst hn1
    rw [num_test_one]
    norm_num
  · rw [num_test_of_two_le h]
    have h3 : 10 ^ 3 ≤ 10 ^ (2 * n - 1) := Nat.pow_le_pow_right (by norm_num) (by omega)
    have : 1000 ≤ 2 * 10 ^ (2 * n - 1) := by omega
    omega

theorem num_eq (n : ℕ) : num n = 10 ^ (2 * n) := by
  rw [num, ← pow_mul, mul_comm]

theorem num_test_le_num {n : ℕ} (hn : 1 ≤ n) : num_test n ≤ num n := by
  rw [num_test_eq hn, num_eq]
  rcases Nat.lt_or_ge n 2 with h | h
  · have hn1 : n = 1 := by omega
    subst hn1
    norm_num
  · have h4 : 10 ^ 4 ≤ 10 ^ (2 * n) := Nat.pow_le_pow_right (by norm_num) (by omega)
    omega

/-! ## Dataset split claims -/

theorem ixes_append (n : ℕ) (perm : List ℕ) :
    ixes n "test" perm ++ ixes n "train" perm = perm := by
  rw [ixes, ixes, if_pos rfl, if_neg (by decide)]
  exact List.take_append_drop _ _

theorem ixes_subset (n : ℕ) (s : String) (perm : List ℕ) : ixes n s perm ⊆ perm := by
  rw [ixes]
  split_ifs
  · exact List.take_subset _ _
  · exact List.drop_subset _ _

/-- C2: split partition. For every `ndigit ≥ 1` and every permutation `perm` of
`range(num)` (numpy's contract for `r.permutation`), the index list of the
`'test'` split and that of the `'train'` split are disjoint, and an index
belongs to one of them exactly when it is one of the `10^(2*ndigit)` problem
indices. -/
theorem C2_split_partition (n : ℕ) (perm : List ℕ) (hn : 1 ≤ n)
    (hp : perm.Perm (List.range (num n))) :
    (ixes n "test" perm).Disjoint (ixes n "train" perm) ∧
      ∀ i, (i ∈ ixes n "test" perm ∨ i ∈ ixes n "train" perm) ↔ i < 10 ^ (2 * n) := by
  have happ := ixes_append n perm
  have hnd : perm.Nodup := (hp.nodup_iff).mpr (List.nodup_range _)
  constructor
  · have h : (ixes n "test" perm ++ ixes n "train" perm).Nodup := by
      rw [happ]
      exact hnd
    exact (List.nodup_append.mp h).2.2
  · intro i
    rw [← List.mem_append, happ, hp.mem_iff, List.mem_range, num_eq]

/-- Witness for C2 at `ndigit = 1` with the identity permutation of
`range(100)`. -/
theorem C2_split_partition_witness :
    (ixes 1 "test" (List.range 100)).Disjoint (ixes 1 "train" (List.range 100)) ∧
      ∀ i, (i ∈ ixes 1 "test" (List.range 100) ∨ i ∈ ixes 1 "train" (List.range 100)) ↔
        i < 10 ^ (2 * 1) :=
  C2_split_partition 1 (List.range 100) (by norm_num)
    (by rw [show num 1 = 100 from by norm_num [num]])

/-- C3: test-set size. For every `ndigit ≥ 1` and every permutation `perm` of
`range(num)`, the length of the `'test'` index list equals
`min(floor(0.2 * 10^(2*ndigit)), 1000)`; the code computes `int(num*0.2)` in
double precision, which here agrees with the exact rational floor. -/
theorem C3_test_size (n : ℕ) (perm : List ℕ) (hn : 1 ≤ n)
    (hp : perm.Perm (List.range (num n))) :
    (ixes n "test" perm).length = min (Int.toNat ⌊(0.2 : ℚ) * 10 ^ (2 * n)⌋) 1000 := by
  have hlen : perm.length = num n := by
    rw [hp.length_eq, List.length_range]
  have hfloor : ⌊(0.2 : ℚ) * 10 ^ (2 * n)⌋ = ((2 * 10 ^ (2 * n - 1) : ℕ) : ℤ) := by
    have h2n : 2 * n = (2 * n - 1) + 1 := by omega
    have hrw : (0.2 : ℚ) * 10 ^ ((2 * n - 1) + 1) = ((2 * 10 ^ (2 * n - 1) : ℕ) : ℚ) := by
      push_cast
      rw [pow_succ]
      ring_nf
    conv_lhs => rw [h2n]
    rw [hrw, Int.floor_natCast]
  rw [ixes, if_pos rfl, List.length_take, hlen, num_test_eq hn, hfloor, Int.toNat_natCast]
  have h1 : min (2 * 10 ^ (2 * n - 1)) 1000 ≤ num n := by
    rw [← num_test_eq hn]
    exact num_test_le_num hn
  omega

/-- Witness for C3 at `ndigit = 1` with the identity permutation of
`range(100)`: the test split holds `min(20, 1000) = 20` indices. -/
theorem C3_test_size_witness :
    (ixes 1 "test" (List.range 100)).length = min (Int.toNat ⌊(0.2 : ℚ) * 10 ^ (2 * 1)⌋) 1000 :=
  C3_test_size 1 (List.range 100) (by norm_num)
    (by rw [show num 1 = 100 from by norm_num [num]])

/-- C5: the index-to-problem mapping `idx ↦ (idx / 10^ndigit, idx % 10^ndigit)`
is a bijection from the flat index space `[0, 10^(2*ndigit))` onto the set of
pairs `(a, b)` with `a, b ∈ [0, 10^ndigit)`. -/
theorem C5_index_bijection (n : ℕ) :
    Set.BijOn (idx_to_problem n) (Set.Iio (10 ^ (2 * n)))
      (Set.Iio (10 ^ n) ×ˢ Set.Iio (10 ^ n)) := by
  have hpos : 0 < 10 ^ n := pow_pos (by norm_num) n
  have hmul : 10 ^ (2 * n) = 10 ^ n * 10 ^ n := by
    rw [two_mul, pow_add]
  refine ⟨?_, ?_, ?_⟩
  · intro i hi
    simp only [Set.mem_Iio, Set.mem_prod, idx_to_problem] at *
    constructor
    · rw [Nat.div_lt_iff_lt_mul hpos]
      omega
    · exact Nat.mod_lt _ hpos
  · intro i _ j _ hij
    simp only [idx_to_problem, Prod.mk.injEq] at hij
    obtain ⟨h1, h2⟩ := hij
    calc i = 10 ^ n * (i / 10 ^ n) + i % 10 ^ n := (Nat.div_add_mod _ _).symm
      _ = 10 ^ n * (j / 10 ^ n) + j % 10 ^ n := by rw [h1, h2]
      _ = j := Nat.div_add_mod _ _
  · intro p hp
    simp only [Set.mem_prod, Set.mem_Iio] at hp
    obtain ⟨ha, hb⟩ := hp
    have hdiv : (p.1 * 10 ^ n + p.2) / 10 ^ n = p.1 := by
      rw [mul_comm p.1 (10 ^ n), Nat.mul_add_div hpos, Nat.div_eq_of_lt hb, add_zero]
    have hmod : (p.1 * 10 ^ n + p.2) % 10 ^ n = p.2 := by
      rw [mul_comm p.1 (10 ^ n), Nat.mul_add_mod, Nat.mod_eq_of_lt hb]
    refine ⟨p.1 * 10 ^ n + p.2, ?_, ?_⟩
    · simp only [Set.mem_Iio]
      calc p.1 * 10 ^ n + p.2 < (p.1 + 1) * 10 ^ n := by
            have hexp : (p.1 + 1) * 10 ^ n = p.1 * 10 ^ n + 10 ^ n := by ring
            omega
        _ ≤ 10 ^ n * 10 ^ n := Nat.mul_le_mul_right _ (by omega)
        _ = 10 ^ (2 * n) := hmul.symm
    · rw [idx_to_problem, hdiv, hmod]

/-- C9: split-argument edge case. For every split string other than exactly
`"test"` (for example `"Test"`), the constructed index list is the one of the
`'train'` split; only the exact string `"test"` selects the test partition. -/
theorem C9_split_string (n : ℕ) (s : String) (perm : List ℕ) (hs : s ≠ "test") :
    ixes n s perm = ixes n "train" perm := by
  rw [ixes, ixes, if_neg hs, if_neg (by decide)]

/-- Witness for C9 at the capitalised split string `"Test"`. -/
theorem C9_split_string_witness :
    ixes 2 "Test" (List.range 16) = ixes 2 "train" (List.range 16) :=
  C9_split_string 2 "Test" (List.range 16) (by decide)

/-! ## Training-pair lemmas -/

theorem target_mask_length (k : ℕ) (y : List ℤ) : (target_mask k y).length = y.length := by
  induction y generalizing k with
  | nil => cases k <;> simp [target_mask]
  | cons h t ih =>
      cases k with
      | zero => simp [target_mask]
      | succ k => simp [target_mask, ih]

theorem target_mask_getD_lt {k : ℕ} {y : List ℤ} {i : ℕ} (hik : i < k) (hiy : i < y.length) :
    (target_mask k y).getD i 0 = -100 := by
  induction y generalizing k i with
  | nil => simp at hiy
  | cons h t ih =>
      cases k with
      | zero => omega
      | succ k =>
          cases i with
          | zero => simp [target_mask]
          | succ i =>
              simp only [target_mask, List.getD_cons_succ]
              exact ih (by omega) (by simpa using hiy)

theorem target_mask_getD_ge {k : ℕ} {y : List ℤ} {i : ℕ} (hik : k ≤ i) :
    (target_mask k y).getD i 0 = y.getD i 0 := by
  induction y generalizing k i with
  | nil => cases k <;> simp [target_mask]
  | cons h t ih =>
      cases k with
      | zero => simp [target_mask]
      | succ k =>
          cases i with
          | zero => omega
          | succ i =>
              simp only [target_mask, List.getD_cons_succ]
              exact ih (by omega)

theorem target_mask_mem {k : ℕ} {y : List ℤ} {d : ℤ} (hd : d ∈ target_mask k y) :
    d = -100 ∨ d ∈ y := by
  induction y generalizing k with
  | nil => cases k <;> simp [target_mask] at hd
  | cons h t ih =>
      cases k with
      | zero =>
          right
          simpa [target_mask] using hd
      | succ k =>
          simp only [target_mask, List.mem_cons] at hd
          rcases hd with h1 | h2
          · left
            exact h1
          · rcases ih h2 with h3 | h4
            · left
              exact h3
            · right
              simp [h4]

theorem ixes_getD_lt (n : ℕ) (s : String) (perm : List ℕ) (i : ℕ)
    (hp : perm.Perm (List.range (num n))) (hi : i < (ixes n s perm).length) :
    (ixes n s perm).getD i 0 < num n := by
  have hmem : (ixes n s perm).getD i 0 ∈ ixes n s perm := by
    rw [List.getD_eq_getElem _ _ hi]
    exact List.getElem_mem hi
  have hperm : (ixes n s perm).getD i 0 ∈ perm := ixes_subset n s perm hmem
  have hr := (hp.mem_iff).mp hperm
  exact List.mem_range.mp hr

theorem encode_xs_getD {n a b : ℕ} (hn : 1 ≤ n) (ha : a < 10 ^ n) (hb : b < 10 ^ n) {j : ℕ}
    (hj : j < 3 * n) :
    ((encode n a b).dropLast.map (fun (d : ℕ) => (d : ℤ))).getD j 0 =
      ((encode n a b).getD j 0 : ℤ) := by
  have hlen := encode_length hn ha hb
  have hj1 : j < ((encode n a b).dropLast.map (fun (d : ℕ) => (d : ℤ))).length := by
    rw [List.length_map, List.length_dropLast, hlen]
    omega
  rw [List.getD_eq_getElem _ _ hj1, List.getElem_map,
    List.getD_eq_getElem _ _ (show j < (encode n a b).length from by omega)]
  congr 1
  exact List.getElem_dropLast ..

theorem encode_ys_getD_lt {n a b : ℕ} (hn : 1 ≤ n) (ha : a < 10 ^ n) (hb : b < 10 ^ n) {j : ℕ}
    (hj : j < 2 * n - 1) :
    (target_mask (n * 2 - 1) ((encode n a b).tail.map (fun (d : ℕ) => (d : ℤ)))).getD j 0 = -100 := by
  have hlen := encode_length hn ha hb
  apply target_mask_getD_lt (by omega)
  rw [List.length_map, List.length_tail, hlen]
  omega

theorem encode_ys_getD_ge {n a b : ℕ} (hn : 1 ≤ n) (ha : a < 10 ^ n) (hb : b < 10 ^ n) {j : ℕ}
    (hj1 : 2 * n - 1 ≤ j) (hj2 : j < 3 * n) :
    (target_mask (n * 2 - 1) ((encode n a b).tail.map (fun (d : ℕ) => (d : ℤ)))).getD j 0 =
      ((encode n a b).getD (j + 1) 0 : ℤ) := by
  have hlen := encode_length hn ha hb
  rw [target_mask_getD_ge (by omega)]
  have hj3 : j < ((encode n a b).tail.map (fun (d : ℕ) => (d : ℤ))).length := by
    rw [List.length_map, List.length_tail, hlen]
    omega
  rw [List.getD_eq_getElem _ _ hj3, List.getElem_map,
    List.getD_eq_getElem _ _ (show j + 1 < (encode n a b).length from by omega)]
  congr 1
  exact List.getElem_tail ..

theorem idx_div_lt (n : ℕ) (s : String) (perm : List ℕ) (i : ℕ)
    (hp : perm.Perm (List.range (num n))) (hi : i < (ixes n s perm).length) :
    (ixes n s perm).getD i 0 / 10 ^ n < 10 ^ n := by
  have hpos : 0 < 10 ^ n := pow_pos (by norm_num) n
  have hidx := ixes_getD_lt n s perm i hp hi
  have hsq : num n = 10 ^ n * 10 ^ n := by
    rw [num, sq]
  rw [Nat.div_lt_iff_lt_mul hpos]
  omega

theorem idx_mod_lt (n : ℕ) (s : String) (perm : List ℕ) (i : ℕ) :
    (ixes n s perm).getD i 0 % 10 ^ n < 10 ^ n :=
  Nat.mod_lt _ (pow_pos (by norm_num) n)

theorem ixes_train_range_length : (ixes 1 "train" (List.range 100)).length = 80 := by
  rw [ixes, if_neg (by decide), List.length_drop, num_test_one, List.length_range]

/-! ## Training-pair claims -/

/-- C8: implicit training-pair tensor lengths. For every `ndigit ≥ 1` and every
valid dataset index, the returned `x` and `y` each have length exactly
`3*ndigit` (one less than the `3*ndigit+1` encoded sequence), and this equals
the dataset's `block_size` attribute, which is `3*ndigit`, not `3*ndigit + 1`. -/
theorem C8_pair_lengths (n : ℕ) (s : String) (perm : List ℕ) (i : ℕ) (hn : 1 ≤ n)
    (hp : perm.Perm (List.range (num n))) (hi : i < (ixes n s perm).length) :
    (getitem n s perm i).1.length = block_size n ∧
      (getitem n s perm i).2.length = block_size n ∧ block_size n = 3 * n := by
  have ha := idx_div_lt n s perm i hp hi
  have hb := idx_mod_lt n s perm i
  have hlen := encode_length hn ha hb
  simp only [getitem]
  refine ⟨?_, ?_, ?_⟩
  · rw [List.length_map, List.length_dropLast, hlen, block_size]
    omega
  · rw [target_mask_length, List.length_map, List.length_tail, hlen, block_size]
    omega
  · rw [block_size]
    omega

/-- Witness for C8 at `ndigit = 1`, split `"train"`, identity permutation of
`range(100)`, index `0`. -/
theorem C8_pair_lengths_witness :
    (getitem 1 "train" (List.range 100) 0).1.length = block_size 1 ∧
      (getitem 1 "train" (List.range 100) 0).2.length = block_size 1 ∧ block_size 1 = 3 * 1 :=
  C8_pair_lengths 1 "train" (List.range 100) 0 (by norm_num)
    (by rw [show num 1 = 100 from by norm_num [num]])
    (by rw [ixes_train_range_length]; norm_num)

/-- C4: training-pair construction. For every valid dataset index, `x` is the
encoded `3*ndigit+1`-digit sequence with its last digit removed, `y` is the
encoded sequence with its first digit removed, exactly the first `2*ndigit - 1`
positions of `y` are set to the ignored marker `-100`, and all later positions
of `y` hold the true next digits of the encoded sequence. -/
theorem C4_training_pair (n : ℕ) (s : String) (perm : List ℕ) (i : ℕ) (hn : 1 ≤ n)
    (hp : perm.Perm (List.range (num n))) (hi : i < (ixes n s perm).length) :
    (getitem n s perm i).1.length = 3 * n ∧
    (getitem n s perm i).2.length = 3 * n ∧
    (∀ j, j < 3 * n → (getitem n s perm i).1.getD j 0 =
      ((encode n ((ixes n s perm).getD i 0 / 10 ^ n)
        ((ixes n s perm).getD i 0 % 10 ^ n)).getD j 0 : ℤ)) ∧
    (∀ j, j < 2 * n - 1 → (getitem n s perm i).2.getD j 0 = -100) ∧
    (∀ j, 2 * n - 1 ≤ j → j < 3 * n → (getitem n s perm i).2.getD j 0 =
      ((encode n ((ixes n s perm).getD i 0 / 10 ^ n)
        ((ixes n s perm).getD i 0 % 10 ^ n)).getD (j + 1) 0 : ℤ)) ∧
    (∀ j, 2 * n - 1 ≤ j → j < 3 * n → (getitem n s perm i).2.getD j 0 ≠ -100) := by
  have ha := idx_div_lt n s perm i hp hi
  have hb := idx_mod_lt n s perm i
  have hlen := encode_length hn ha hb
  refine ⟨?_, ?_, ?_, ?_, ?_, ?_⟩
  · simp only [getitem]
    rw [List.length_map, List.length_dropLast, hlen]
    omega
  · simp only [getitem]
    rw [target_mask_length, List.length_map, List.length_tail, hlen]
    omega
  · intro j hj
    simp only [getitem]
    exact encode_xs_getD hn ha hb hj
  · intro j hj
    simp only [getitem]
    exact encode_ys_getD_lt hn ha hb hj
  · intro j hj1 hj2
    simp only [getitem]
    exact encode_ys_getD_ge hn ha hb hj1 hj2
  · intro j hj1 hj2
    simp only [getitem]
    rw [encode_ys_getD_ge hn ha hb hj1 hj2]
    have hnn := Int.natCast_nonneg ((encode n ((ixes n s perm).getD i 0 / 10 ^ n)
      ((ixes n s perm).getD i 0 % 10 ^ n)).getD (j + 1) 0)
    omega

/-- Witness for C4 at `ndigit = 1`, split `"train"`, identity permutation of
`range(100)`, index `0`. -/
theorem C4_training_pair_witness :
    (getitem 1 "train" (List.range 100) 0).1.length = 3 * 1 ∧
    (getitem 1 "train" (List.range 100) 0).2.length = 3 * 1 ∧
    (∀ j, j < 3 * 1 → (getitem 1 "train" (List.range 100) 0).1.getD j 0 =
      ((encode 1 ((ixes 1 "train" (List.range 100)).getD 0 0 / 10 ^ 1)
        ((ixes 1 "train" (List.range 100)).getD 0 0 % 10 ^ 1)).getD j 0 : ℤ)) ∧
    (∀ j, j < 2 * 1 - 1 → (getitem 1 "train" (List.range 100) 0).2.getD j 0 = -100) ∧
    (∀ j, 2 * 1 - 1 ≤ j → j < 3 * 1 → (getitem 1 "train" (List.range 100) 0).2.getD j 0 =
      ((encode 1 ((ixes 1 "train" (List.range 100)).getD 0 0 / 10 ^ 1)
        ((ixes 1 "train" (List.range 100)).getD 0 0 % 10 ^ 1)).getD (j + 1) 0 : ℤ)) ∧
    (∀ j, 2 * 1 - 1 ≤ j → j < 3 * 1 →
      (getitem 1 "train" (List.range 100) 0).2.getD j 0 ≠ -100) :=
  C4_training_pair 1 "train" (List.range 100) 0 (by norm_num)
    (by rw [show num 1 = 100 from by norm_num [num]])
    (by rw [ixes_train_range_length]; norm_num)

/-- C10: implicit token-range invariant. For every valid dataset index, every
element of the returned `x` is a digit in `0..9` (a valid token index for the
declared `vocab_size` of 10), and every element of the returned `y` is either
the ignored marker `-100` or a digit in `0..9`. -/
theorem C10_token_range (n : ℕ) (s : String) (perm : List ℕ) (i : ℕ) (hn : 1 ≤ n)
    (hp : perm.Perm (List.range (num n))) (hi : i < (ixes n s perm).length) :
    (∀ d ∈ (getitem n s perm i).1, 0 ≤ d ∧ d < (vocab_size : ℤ)) ∧
      ∀ d ∈ (getitem n s perm i).2, d = -100 ∨ (0 ≤ d ∧ d < (vocab_size : ℤ)) := by
  have ha := idx_div_lt n s perm i hp hi
  have hb := idx_mod_lt n s perm i
  constructor
  · intro d hd
    simp only [getitem] at hd
    rw [List.mem_map] at hd
    obtain ⟨v, hv, rfl⟩ := hd
    have hv2 := encode_digit_lt (List.mem_of_mem_dropLast hv)
    refine ⟨Int.natCast_nonneg v, ?_⟩
    unfold vocab_size
    omega
  · intro d hd
    simp only [getitem] at hd
    rcases target_mask_mem hd with h | h
    · exact Or.inl h
    · right
      rw [List.mem_map] at h
      obtain ⟨v, hv, rfl⟩ := h
      have hv2 := encode_digit_lt (List.tail_subset _ hv)
      refine ⟨Int.natCast_nonneg v, ?_⟩
      unfold vocab_size
      omega

/-- Witness for C10 at `ndigit = 1`, split `"train"`, identity permutation of
`range(100)`, index `0`. -/
theorem C10_token_range_witness :
    (∀ d ∈ (getitem 1 "train" (List.range 100) 0).1, 0 ≤ d ∧ d < (vocab_size : ℤ)) ∧
      ∀ d ∈ (getitem 1 "train" (List.range 100) 0).2,
        d = -100 ∨ (0 ≤ d ∧ d < (vocab_size : ℤ)) :=
  C10_token_range 1 "train" (List.range 100) 0 (by norm_num)
    (by rw [show num 1 = 100 from by norm_num [num]])
    (by rw [ixes_train_range_length]; norm_num)

/-- Witness for C5 at `ndigit = 1`. -/
theorem C5_index_bijection_witness :
    Set.BijOn (idx_to_problem 1) (Set.Iio (10 ^ (2 * 1)))
      (Set.Iio (10 ^ 1) ×ˢ Set.Iio (10 ^ 1)) :=
  C5_index_bijection 1
